import Mathlib

/-!
A shallow embedding of the `mm_maze` micromouse maze-navigation core
(`src/maze.rs`, `src/adachi.rs`, `src/path_finder.rs`) and proofs about it.

Conventions of the embedding:
* Rust `Vec<Vec<Wall>>` / `Vec<Vec<u16>>` matrices become total functions
  `Nat → Nat → Wall` / `Nat → Nat → Nat`; the source only ever indexes them
  in range in the situations the theorems cover (hypotheses record this).
* `u16` values become `Nat` with wrapping made explicit as `% 65536` at the
  single arithmetic operation (`neighbor + 1`); lemma `StepInv` shows all
  stored values stay `≤ 65534`, so no wrap ever takes effect and the
  embedding agrees with both debug (panicking) and release (wrapping) Rust.
* Cells are addressed as pairs `(y, x)` matching the `[y][x]` indexing of
  the source; `Position` keeps the field names `x`, `y` of the source.
* The fallible `Location::forward` (usize subtraction that underflows at
  the south/west border) returns `Option Location`, `none` being the
  panicking branch of the source.
-/

namespace MmMaze

/-- The `Wall` from src/maze.rs. -/
inductive Wall where
  | Absent
  | Present
  | Unexplored
deriving DecidableEq, Repr

/-- The `Direction` from src/maze.rs. -/
inductive Direction where
  | Forward
  | Left
  | Right
  | Backward
deriving DecidableEq, Repr

/-- The `Compass` from src/maze.rs. -/
inductive Compass where
  | North
  | East
  | South
  | West
deriving DecidableEq, Repr

/-- The `Compass::turn` from src/maze.rs: the 4×4 table mapping a heading and a
relative turn to the resulting absolute heading. -/
def Compass.turn : Compass → Direction → Compass
  | Compass.North, Direction.Forward => Compass.North
  | Compass.North, Direction.Left => Compass.West
  | Compass.North, Direction.Right => Compass.East
  | Compass.North, Direction.Backward => Compass.South
  | Compass.East, Direction.Forward => Compass.East
  | Compass.East, Direction.Left => Compass.North
  | Compass.East, Direction.Right => Compass.South
  | Compass.East, Direction.Backward => Compass.West
  | Compass.South, Direction.Forward => Compass.South
  | Compass.South, Direction.Left => Compass.East
  | Compass.South, Direction.Right => Compass.West
  | Compass.South, Direction.Backward => Compass.North
  | Compass.West, Direction.Forward => Compass.West
  | Compass.West, Direction.Left => Compass.South
  | Compass.West, Direction.Right => Compass.North
  | Compass.West, Direction.Backward => Compass.East

/-- The `Compass::get_direction_to` from src/maze.rs: the relative turn that
takes the first heading to the second. -/
def Compass.get_direction_to : Compass → Compass → Direction
  | Compass.North, Compass.North => Direction.Forward
  | Compass.North, Compass.East => Direction.Right
  | Compass.North, Compass.South => Direction.Backward
  | Compass.North, Compass.West => Direction.Left
  | Compass.East, Compass.North => Direction.Left
  | Compass.East, Compass.East => Direction.Forward
  | Compass.East, Compass.South => Direction.Right
  | Compass.East, Compass.West => Direction.Backward
  | Compass.South, Compass.North => Direction.Backward
  | Compass.South, Compass.East => Direction.Left
  | Compass.South, Compass.South => Direction.Forward
  | Compass.South, Compass.West => Direction.Right
  | Compass.West, Compass.North => Direction.Right
  | Compass.West, Compass.East => Direction.Backward
  | Compass.West, Compass.South => Direction.Left
  | Compass.West, Compass.West => Direction.Forward

/-- The `Position` from src/maze.rs. -/
structure Position where
  x : Nat
  y : Nat
deriving DecidableEq, Repr

/-- The `Location` from src/maze.rs. -/
structure Location where
  pos : Position
  dir : Compass
deriving DecidableEq, Repr

/-- The `Location::turn` from src/maze.rs. -/
def Location.turn (l : Location) (d : Direction) : Location :=
  { l with dir := l.dir.turn d }

/-- The `Location::forward` from src/maze.rs.  The source does unchecked
`usize` arithmetic (`self.pos.y -= 1` / `self.pos.x -= 1`); the subtraction
underflows (panics) when the coordinate is 0, which the embedding renders
as `none`. -/
def Location.forward (l : Location) : Option Location :=
  match l.dir with
  | Compass.North => some { l with pos := { x := l.pos.x, y := l.pos.y + 1 } }
  | Compass.East => some { l with pos := { x := l.pos.x + 1, y := l.pos.y } }
  | Compass.South =>
      if l.pos.y = 0 then none
      else some { l with pos := { x := l.pos.x, y := l.pos.y - 1 } }
  | Compass.West =>
      if l.pos.x = 0 then none
      else some { l with pos := { x := l.pos.x - 1, y := l.pos.y } }

/-- The `Maze` from src/maze.rs, with the two wall matrices as total
functions.  `horizontal_walls` has meaningful rows `0..height` (inclusive)
and columns `0..width`; `vertical_walls` rows `0..height` and columns
`0..width` (inclusive). -/
structure Maze where
  width : Nat
  height : Nat
  horizontal_walls : Nat → Nat → Wall
  vertical_walls : Nat → Nat → Wall
  goal : Position

/-- Pointwise update of a two-index function (the embedding of one
`matrix[i][j] = v` store). -/
def upd2 {α : Type} (f : Nat → Nat → α) (i j : Nat) (v : α) : Nat → Nat → α :=
  fun a b => if a = i ∧ b = j then v else f a b

theorem upd2_eval {α : Type} (f : Nat → Nat → α) (i j : Nat) (v : α) (a b : Nat) :
    upd2 f i j v a b = if a = i ∧ b = j then v else f a b := rfl

/-- The `Maze::get` from src/maze.rs. -/
def Maze.get (m : Maze) (y x : Nat) (c : Compass) : Wall :=
  match c with
  | Compass.North => m.horizontal_walls (y + 1) x
  | Compass.East => m.vertical_walls y (x + 1)
  | Compass.South => m.horizontal_walls y x
  | Compass.West => m.vertical_walls y x

/-- The `Maze::set` from src/maze.rs, including its outer-wall guard exactly as
written there (the guard compares the cell coordinate to `height` / `width`,
not `height - 1` / `width - 1`). -/
def Maze.set (m : Maze) (y x : Nat) (c : Compass) (w : Wall) : Maze :=
  if (y = 0 ∧ c = Compass.South ∧ w ≠ Wall.Present)
      ∨ (y = m.height ∧ c = Compass.North ∧ w ≠ Wall.Present)
      ∨ (x = 0 ∧ c = Compass.West ∧ w ≠ Wall.Present)
      ∨ (x = m.width ∧ c = Compass.East ∧ w ≠ Wall.Present) then
    m
  else
    match c with
    | Compass.North => { m with horizontal_walls := upd2 m.horizontal_walls (y + 1) x w }
    | Compass.East => { m with vertical_walls := upd2 m.vertical_walls y (x + 1) w }
    | Compass.South => { m with horizontal_walls := upd2 m.horizontal_walls y x w }
    | Compass.West => { m with vertical_walls := upd2 m.vertical_walls y x w }

/-- The `Maze::get_neighbor_cell` from src/maze.rs: the adjacent cell `(y, x)`
in the given direction, or `none` at the corresponding border row/column. -/
def Maze.get_neighbor_cell (m : Maze) (y x : Nat) (c : Compass) : Option (Nat × Nat) :=
  match c with
  | Compass.North => if y = m.height - 1 then none else some (y + 1, x)
  | Compass.East => if x = m.width - 1 then none else some (y, x + 1)
  | Compass.South => if y = 0 then none else some (y - 1, x)
  | Compass.West => if x = 0 then none else some (y, x - 1)

/-- The `Maze::init` from src/maze.rs: every wall Unexplored, then the outer
boundary Present, then `set(0, 0, North.turn(Right), Present)` (the east
wall of the start cell), then the goal at the centre cell.  The source's
loops only write indices inside the matrices; the functional embedding
extends the same values to all indices. -/
def Maze.init (m : Maze) : Maze :=
  let cleared : Maze :=
    { m with
      horizontal_walls := fun y _ =>
        if y = 0 ∨ y = m.height then Wall.Present else Wall.Unexplored,
      vertical_walls := fun _ x =>
        if x = 0 ∨ x = m.width then Wall.Present else Wall.Unexplored }
  let withStart := cleared.set 0 0 (Compass.North.turn Direction.Right) Wall.Present
  { withStart with goal := { x := m.width / 2, y := m.height / 2 } }

/-- The `Maze::new` from src/maze.rs. -/
def Maze.new (width height : Nat) : Maze :=
  Maze.init
    { width := width, height := height,
      horizontal_walls := fun _ _ => Wall.Unexplored,
      vertical_walls := fun _ _ => Wall.Unexplored,
      goal := { x := 0, y := 0 } }

/-! ## The Adachi step-map engine (src/adachi.rs) -/

/-- The `StepMapMode` from src/adachi.rs. -/
inductive StepMapMode where
  | UnexploredAsAbsent
  | UnexploredAsPresent
deriving DecidableEq, Repr

/-- The `Adachi::NONE` from src/adachi.rs: `u16::MAX - 1 = 65534`, the
"unreached" sentinel of the step map. -/
def NONE : Nat := 65534

/-- A step map: the embedding of `Vec<Vec<u16>>`, indexed `sm y x`. -/
def StepMap : Type := Nat → Nat → Nat

/-- The `is_wall` closure selected in `Adachi::calc_step_map` (its name is
the source's; it is true when the edge is PASSABLE under the mode). -/
def is_wall (mode : StepMapMode) : Wall → Bool :=
  match mode with
  | StepMapMode.UnexploredAsAbsent => fun wall =>
      match wall with
      | Wall.Absent => true
      | Wall.Unexplored => true
      | Wall.Present => false
  | StepMapMode.UnexploredAsPresent => fun wall =>
      match wall with
      | Wall.Absent => true
      | _ => false

/-- The step map after the reset in `calc_step_map`: every cell `NONE`,
then the goal cell 0. -/
def initMap (g : Position) : StepMap :=
  upd2 (fun _ _ => NONE) g.y g.x 0

/-- The sequence of `(cell, compass)` pairs visited by one pass of the
relaxation loops in `calc_step_map`: `i` in `0..height`, `j` in
`0..width`, compass in N, E, S, W order. -/
def scanned_cells (m : Maze) : List ((Nat × Nat) × Compass) :=
  (List.range m.height).flatMap fun i =>
    (List.range m.width).flatMap fun j =>
      [Compass.North, Compass.East, Compass.South, Compass.West].map fun c => ((i, j), c)

/-- One iteration of the innermost body of `calc_step_map`: relax cell
`t.1` from its neighbor in direction `t.2`.  The state is the step map
plus an "updated" flag (the negation of the source's `no_cell_updated`).
`(neighbor + 1)` is `u16` addition, hence the `% 65536`. -/
def relax (m : Maze) (isw : Wall → Bool) (s : StepMap × Bool)
    (t : (Nat × Nat) × Compass) : StepMap × Bool :=
  match m.get_neighbor_cell t.1.1 t.1.2 t.2 with
  | none => s
  | some (y, x) =>
      let neighbor := s.1 y x
      let current := s.1 t.1.1 t.1.2
      if isw (m.get t.1.1 t.1.2 t.2) then
        if current > (neighbor + 1) % 65536 then
          (upd2 s.1 t.1.1 t.1.2 ((neighbor + 1) % 65536), true)
        else s
      else s

/-- One full pass of the `while` loop in `calc_step_map`.  Returns the new
map and whether any cell was updated. -/
def onePass (m : Maze) (isw : Wall → Bool) (sm : StepMap) : StepMap × Bool :=
  (scanned_cells m).foldl (relax m isw) (sm, false)

/-- Total of all in-range step-map entries; the decreasing measure of the
relaxation loop. -/
def sumMap (m : Maze) (sm : StepMap) : Nat :=
  ∑ y ∈ Finset.range m.height, ∑ x ∈ Finset.range m.width, sm y x

/-- The `while !no_cell_updated` loop of `calc_step_map`, run with
explicit fuel.  `loopFuel_fix` below shows the fuel used by
`calc_step_map` suffices to reach the fixpoint, so this equals the
source's unbounded loop. -/
def loopFuel (m : Maze) (isw : Wall → Bool) : Nat → StepMap → StepMap
  | 0, sm => sm
  | fuel + 1, sm =>
      let r := onePass m isw sm
      if r.2 then loopFuel m isw fuel r.1 else r.1

/-- The `Adachi::calc_step_map` from src/adachi.rs: reset the map, set the
goal to 0, relax to fixpoint.  (The source's lazy (re)allocation of
`step_map` only fixes its shape; every entry is then reset, which the
fresh `initMap` models.) -/
def calc_step_map (m : Maze) (mode : StepMapMode) (g : Position) : StepMap :=
  loopFuel m (is_wall mode) (sumMap m (initMap g) + 1) (initMap g)

/-- Reachability in exactly `n` open-edge hops from cell `c` (as `(y, x)`)
to the goal cell, where an edge is open when the mode's `is_wall`
predicate accepts it: the graph-distance notion the spec states
`calc_step_map` computes. -/
def reach (m : Maze) (isw : Wall → Bool) (g : Position) : Nat → Nat × Nat → Bool
  | 0, c => decide (c = (g.y, g.x))
  | n + 1, c =>
      [Compass.North, Compass.East, Compass.South, Compass.West].any fun comp =>
        match m.get_neighbor_cell c.1 c.2 comp with
        | none => false
        | some c2 => isw (m.get c.1 c.2 comp) && reach m isw g n c2

/-! ## The navigator (src/adachi.rs, `impl PathFinder for Adachi`) -/

/-- The two terminal failures of `navigate` (the source uses
`anyhow::anyhow!("Goal reached")` / `anyhow!("No path to go")`). -/
inductive NavError where
  | goalReached
  | noPath
deriving DecidableEq, Repr

/-- The `Adachi` from src/adachi.rs.  The source's `step_map: vec![]` starts
empty and is allocated by `calc_step_map`; since `navigate` always
recomputes it before reading it, the initial value is immaterial and the
embedding starts it all-`NONE`. -/
structure Adachi where
  location : Location
  maze : Maze
  step_map : StepMap
  mode : StepMapMode

/-- The `Adachi::new` from src/adachi.rs. -/
def Adachi.new (m : Maze) : Adachi :=
  { location := { pos := { x := 0, y := 0 }, dir := Compass.North },
    maze := m,
    step_map := fun _ _ => NONE,
    mode := StepMapMode.UnexploredAsAbsent }

/-- The three sensor writes at the start of `navigate`: record the front,
left and right readings at the current cell via `Compass::turn`. -/
def record_walls (a : Adachi) (front left right : Wall) : Maze :=
  let m1 := a.maze.set a.location.pos.y a.location.pos.x
    (a.location.dir.turn Direction.Forward) front
  let m2 := m1.set a.location.pos.y a.location.pos.x
    (a.location.dir.turn Direction.Left) left
  m2.set a.location.pos.y a.location.pos.x
    (a.location.dir.turn Direction.Right) right

/-- The step-map value of the neighbor in the given absolute direction,
with the exact index arithmetic of the four scan blocks of `navigate`
(`step_map[cur_y + 1][cur_x]`, etc.). -/
def neighbor_step (sm : StepMap) (y x : Nat) : Compass → Nat
  | Compass.North => sm (y + 1) x
  | Compass.East => sm y (x + 1)
  | Compass.South => sm (y - 1) x
  | Compass.West => sm y (x - 1)

/-- One scan block of `navigate`: if the edge is Absent and the neighbor's
step value is below the running minimum, it becomes the new best
direction. -/
def pick (s : Nat × Option Compass) (w : Wall) (v : Nat) (c : Compass) :
    Nat × Option Compass :=
  if w = Wall.Absent ∧ v < s.1 then (v, some c) else s

/-- The four scan blocks of `navigate` in their fixed North, East, South,
West order, starting from `min_step = u16::MAX = 65535`, `result = None`. -/
def scan_dirs (m3 : Maze) (sm : StepMap) (y x : Nat) : Nat × Option Compass :=
  let s1 := pick (65535, none) (m3.get y x Compass.North)
    (neighbor_step sm y x Compass.North) Compass.North
  let s2 := pick s1 (m3.get y x Compass.East)
    (neighbor_step sm y x Compass.East) Compass.East
  let s3 := pick s2 (m3.get y x Compass.South)
    (neighbor_step sm y x Compass.South) Compass.South
  pick s3 (m3.get y x Compass.West)
    (neighbor_step sm y x Compass.West) Compass.West

/-- The `Adachi::navigate` method from src/adachi.rs.  Returns the result together
with the updated navigator state (the source mutates `self`; on the
`noPath` error the wall writes and step-map recomputation persist, on
`goalReached` nothing was touched). -/
def Adachi.navigate (a : Adachi) (front left right : Wall) (goal : Position) :
    Except NavError Direction × Adachi :=
  if a.maze.goal = a.location.pos then
    (Except.error NavError.goalReached, a)
  else
    let m3 := record_walls a front left right
    let sm := calc_step_map m3 a.mode goal
    let a2 : Adachi := { a with maze := m3, step_map := sm }
    match (scan_dirs m3 sm a.location.pos.y a.location.pos.x).2 with
    | none => (Except.error NavError.noPath, a2)
    | some comp => (Except.ok (a.location.dir.get_direction_to comp), a2)

/-- The scan order position of a compass direction in the fixed
North, East, South, West scan of `navigate`. -/
def scan_idx : Compass → Nat
  | Compass.North => 0
  | Compass.East => 1
  | Compass.South => 2
  | Compass.West => 3

/-- The outer-boundary invariant of the maze: every boundary edge is
Present.  (Spec §3; maintained by `Maze::init`, and assumed by `navigate`'s
scan, whose neighbor indexing in the source is only in bounds under it.) -/
def boundary_ok (m : Maze) : Prop :=
  (∀ x, x < m.width →
    m.horizontal_walls 0 x = Wall.Present ∧ m.horizontal_walls m.height x = Wall.Present) ∧
  (∀ y, y < m.height →
    m.vertical_walls y 0 = Wall.Present ∧ m.vertical_walls y m.width = Wall.Present)

instance (m : Maze) : Decidable (boundary_ok m) := by
  unfold boundary_ok
  infer_instance

instance {e d : Type} [DecidableEq e] [DecidableEq d] : DecidableEq (Except e d) :=
  fun a b =>
    match a, b with
    | Except.error e1, Except.error e2 =>
        decidable_of_iff (e1 = e2) (by constructor
                                       · intro h; rw [h]
                                       · intro h; cases h; rfl)
    | Except.ok d1, Except.ok d2 =>
        decidable_of_iff (d1 = d2) (by constructor
                                       · intro h; rw [h]
                                       · intro h; cases h; rfl)
    | Except.error _, Except.ok _ => isFalse (by intro h; cases h)
    | Except.ok _, Except.error _ => isFalse (by intro h; cases h)

/-! ## Basic lemmas about the scan list and one relaxation step -/

theorem mem_scanned_cells (m : Maze) (t : (Nat × Nat) × Compass) :
    t ∈ scanned_cells m ↔ t.1.1 < m.height ∧ t.1.2 < m.width := by
  obtain ⟨⟨i, j⟩, c⟩ := t
  simp only [scanned_cells, List.mem_flatMap, List.mem_map, List.mem_range]
  constructor
  · rintro ⟨i2, hi2, j2, hj2, c2, _, heq⟩
    obtain ⟨h1, h2⟩ := Prod.mk.injEq _ _ _ _ ▸ heq
    cases h1
    exact ⟨hi2, hj2⟩
  · rintro ⟨hi, hj⟩
    exact ⟨i, hi, j, hj, c, by cases c <;> simp, rfl⟩

theorem neighbor_range (m : Maze) (y x : Nat) (c : Compass) (y2 x2 : Nat)
    (h : m.get_neighbor_cell y x c = some (y2, x2))
    (hy : y < m.height) (hx : x < m.width) : y2 < m.height ∧ x2 < m.width := by
  cases c <;> simp only [Maze.get_neighbor_cell] at h <;> split at h <;>
    simp_all <;> omega

/-- Each innermost relaxation step either leaves the state unchanged or
strictly lowers the scanned cell's entry and raises the updated flag. -/
theorem relax_eq_or_update (m : Maze) (isw : Wall → Bool) (s : StepMap × Bool)
    (t : (Nat × Nat) × Compass) :
    relax m isw s t = s ∨
      ∃ y2 x2, m.get_neighbor_cell t.1.1 t.1.2 t.2 = some (y2, x2) ∧
        isw (m.get t.1.1 t.1.2 t.2) = true ∧
        (s.1 y2 x2 + 1) % 65536 < s.1 t.1.1 t.1.2 ∧
        relax m isw s t =
          (upd2 s.1 t.1.1 t.1.2 ((s.1 y2 x2 + 1) % 65536), true) := by
  unfold relax
  rcases h : m.get_neighbor_cell t.1.1 t.1.2 t.2 with _ | ⟨y2, x2⟩
  · exact Or.inl rfl
  · by_cases hw : isw (m.get t.1.1 t.1.2 t.2)
    · by_cases hlt : s.1 t.1.1 t.1.2 > (s.1 y2 x2 + 1) % 65536
      · exact Or.inr ⟨y2, x2, rfl, hw, hlt, by simp [hw, hlt]⟩
      · simp [hw, hlt]
    · simp [hw]

theorem relax_flag_mono (m : Maze) (isw : Wall → Bool) (s : StepMap × Bool)
    (t : (Nat × Nat) × Compass) (h : s.2 = true) : (relax m isw s t).2 = true := by
  rcases relax_eq_or_update m isw s t with heq | ⟨y2, x2, _, _, _, heq⟩
  · rw [heq]; exact h
  · rw [heq]

theorem upd2_le (sm : StepMap) (i j v : Nat) (hv : v ≤ sm i j) (a b : Nat) :
    upd2 sm i j v a b ≤ sm a b := by
  unfold upd2
  split
  · next h => obtain ⟨h1, h2⟩ := h; subst h1; subst h2; exact hv
  · exact Nat.le_refl _

theorem relax_fst_le (m : Maze) (isw : Wall → Bool) (s : StepMap × Bool)
    (t : (Nat × Nat) × Compass) (a b : Nat) : (relax m isw s t).1 a b ≤ s.1 a b := by
  rcases relax_eq_or_update m isw s t with heq | ⟨y2, x2, _, _, hlt, heq⟩
  · rw [heq]
  · rw [heq]
    exact upd2_le _ _ _ _ (Nat.le_of_lt hlt) a b

theorem relax_of_flag_false (m : Maze) (isw : Wall → Bool) (s : StepMap × Bool)
    (t : (Nat × Nat) × Compass) (h : (relax m isw s t).2 = false) :
    relax m isw s t = s ∧ s.2 = false := by
  rcases relax_eq_or_update m isw s t with heq | ⟨y2, x2, _, _, _, heq⟩
  · rw [heq] at h ⊢
    exact ⟨rfl, h⟩
  · rw [heq] at h
    simp at h

theorem sumMap_le_of_pointwise (m : Maze) (f g : StepMap)
    (h : ∀ a b, f a b ≤ g a b) : sumMap m f ≤ sumMap m g := by
  unfold sumMap
  exact Finset.sum_le_sum fun y _ => Finset.sum_le_sum fun x _ => h y x

theorem sumMap_upd2_lt (m : Maze) (sm : StepMap) (i j v : Nat)
    (hi : i < m.height) (hj : j < m.width) (hv : v < sm i j) :
    sumMap m (upd2 sm i j v) < sumMap m sm := by
  unfold sumMap
  apply Finset.sum_lt_sum
  · intro y _
    exact Finset.sum_le_sum fun x _ => upd2_le sm i j v (Nat.le_of_lt hv) y x
  · refine ⟨i, Finset.mem_range.mpr hi, ?_⟩
    apply Finset.sum_lt_sum
    · intro x _
      exact upd2_le sm i j v (Nat.le_of_lt hv) i x
    · refine ⟨j, Finset.mem_range.mpr hj, ?_⟩
      have : upd2 sm i j v i j = v := by simp [upd2]
      rw [this]
      exact hv

theorem relax_sum_le (m : Maze) (isw : Wall → Bool) (s : StepMap × Bool)
    (t : (Nat × Nat) × Compass) : sumMap m (relax m isw s t).1 ≤ sumMap m s.1 :=
  sumMap_le_of_pointwise m _ _ (relax_fst_le m isw s t)

theorem relax_sum_lt (m : Maze) (isw : Wall → Bool) (s : StepMap × Bool)
    (t : (Nat × Nat) × Compass) (ht : t ∈ scanned_cells m)
    (hup : (relax m isw s t).2 = true) (hst : s.2 = false) :
    sumMap m (relax m isw s t).1 < sumMap m s.1 := by
  rcases relax_eq_or_update m isw s t with heq | ⟨y2, x2, _, _, hlt, heq⟩
  · rw [heq] at hup
    rw [hup] at hst
    cases hst
  · rw [heq]
    obtain ⟨hi, hj⟩ := (mem_scanned_cells m t).mp ht
    exact sumMap_upd2_lt m s.1 t.1.1 t.1.2 _ hi hj hlt

/-! ## Fold-level lemmas for one full relaxation pass -/

theorem foldl_flag_mono (m : Maze) (isw : Wall → Bool)
    (l : List ((Nat × Nat) × Compass)) (s : StepMap × Bool) (h : s.2 = true) :
    (l.foldl (relax m isw) s).2 = true := by
  induction l generalizing s with
  | nil => exact h
  | cons t ts ih => exact ih _ (relax_flag_mono m isw s t h)

theorem foldl_fst_le (m : Maze) (isw : Wall → Bool)
    (l : List ((Nat × Nat) × Compass)) (s : StepMap × Bool) (a b : Nat) :
    (l.foldl (relax m isw) s).1 a b ≤ s.1 a b := by
  induction l generalizing s with
  | nil => exact Nat.le_refl _
  | cons t ts ih => exact Nat.le_trans (ih (relax m isw s t)) (relax_fst_le m isw s t a b)

/-- If a whole fold ends with the updated flag still false, every single
step in it was a no-op against the initial map. -/
theorem foldl_flag_false_noop (m : Maze) (isw : Wall → Bool)
    (l : List ((Nat × Nat) × Compass)) (sm : StepMap)
    (h : (l.foldl (relax m isw) (sm, false)).2 = false) :
    l.foldl (relax m isw) (sm, false) = (sm, false) ∧
      ∀ t ∈ l, relax m isw (sm, false) t = (sm, false) := by
  induction l generalizing sm with
  | nil => exact ⟨rfl, by intro t ht; cases ht⟩
  | cons t ts ih =>
      have hstep : (relax m isw (sm, false) t).2 = false := by
        by_contra hne
        have htrue : (relax m isw (sm, false) t).2 = true := by
          cases hflag : (relax m isw (sm, false) t).2
          · exact absurd hflag hne
          · rfl
        have := foldl_flag_mono m isw ts _ htrue
        rw [List.foldl_cons] at h
        rw [this] at h
        cases h
      obtain ⟨heq, _⟩ := relax_of_flag_false m isw _ t hstep
      rw [List.foldl_cons] at h
      rw [heq] at h
      obtain ⟨hfold, hall⟩ := ih sm h
      refine ⟨by rw [List.foldl_cons, heq, hfold], ?_⟩
      intro t2 ht2
      rcases List.mem_cons.mp ht2 with rfl | hmem
      · exact heq
      · exact hall t2 hmem

theorem foldl_sum_le (m : Maze) (isw : Wall → Bool)
    (l : List ((Nat × Nat) × Compass)) (s : StepMap × Bool) :
    sumMap m (l.foldl (relax m isw) s).1 ≤ sumMap m s.1 :=
  sumMap_le_of_pointwise m _ _ (foldl_fst_le m isw l s)

/-- A pass that reports an update strictly decreases the total of the
step map: the decreasing measure of the relaxation loop. -/
theorem foldl_sum_lt (m : Maze) (isw : Wall → Bool)
    (l : List ((Nat × Nat) × Compass)) (sm : StepMap)
    (hl : ∀ t ∈ l, t ∈ scanned_cells m)
    (h : (l.foldl (relax m isw) (sm, false)).2 = true) :
    sumMap m (l.foldl (relax m isw) (sm, false)).1 < sumMap m sm := by
  induction l generalizing sm with
  | nil => cases h
  | cons t ts ih =>
      rw [List.foldl_cons] at h ⊢
      cases hstep : (relax m isw (sm, false) t).2
      · obtain ⟨heq, _⟩ := relax_of_flag_false m isw _ t hstep
        rw [heq] at h ⊢
        exact ih sm (fun t2 ht2 => hl t2 (List.mem_cons_of_mem t ht2)) h
      · have hlt : sumMap m (relax m isw (sm, false) t).1 < sumMap m sm :=
          relax_sum_lt m isw (sm, false) t (hl t (List.mem_cons_self t ts)) hstep rfl
        calc sumMap m ((ts.foldl (relax m isw) (relax m isw (sm, false) t))).1
            ≤ sumMap m (relax m isw (sm, false) t).1 := foldl_sum_le m isw ts _
          _ < sumMap m sm := hlt

theorem onePass_sum_lt (m : Maze) (isw : Wall → Bool) (sm : StepMap)
    (h : (onePass m isw sm).2 = true) :
    sumMap m (onePass m isw sm).1 < sumMap m sm :=
  foldl_sum_lt m isw (scanned_cells m) sm (fun _ ht => ht) h

theorem onePass_of_flag_false (m : Maze) (isw : Wall → Bool) (sm : StepMap)
    (h : (onePass m isw sm).2 = false) :
    (onePass m isw sm).1 = sm ∧
      ∀ t ∈ scanned_cells m, relax m isw (sm, false) t = (sm, false) := by
  obtain ⟨heq, hall⟩ := foldl_flag_false_noop m isw (scanned_cells m) sm h
  exact ⟨by rw [onePass, heq], hall⟩

/-! ## The loop reaches its fixpoint within the fuel -/

/-- With fuel at least `sumMap + 1`, the fueled loop lands on a map on
which a further pass makes no update: the embedding's fuel is enough for
the source's run-to-fixpoint `while` loop. -/
theorem loopFuel_fix (m : Maze) (isw : Wall → Bool) (fuel : Nat) (sm : StepMap)
    (hfuel : sumMap m sm + 1 ≤ fuel) :
    onePass m isw (loopFuel m isw fuel sm) = (loopFuel m isw fuel sm, false) := by
  induction fuel generalizing sm with
  | zero => omega
  | succ fuel ih =>
      have hunf : loopFuel m isw (fuel + 1) sm =
          if (onePass m isw sm).2 then loopFuel m isw fuel (onePass m isw sm).1
          else (onePass m isw sm).1 := rfl
      cases hflag : (onePass m isw sm).2 with
      | false =>
          obtain ⟨heq, _⟩ := onePass_of_flag_false m isw sm hflag
          rw [hunf, hflag]
          simp only [Bool.false_eq_true, if_false, heq]
          exact Prod.ext heq hflag
      | true =>
          rw [hunf, hflag]
          simp only [if_true]
          apply ih
          have := onePass_sum_lt m isw sm hflag
          omega

theorem calc_step_map_fix (m : Maze) (mode : StepMapMode) (g : Position) :
    onePass m (is_wall mode) (calc_step_map m mode g) =
      (calc_step_map m mode g, false) :=
  loopFuel_fix m (is_wall mode) _ (initMap g) (Nat.le_refl _)

/-! ## The invariant carried through the relaxation -/

/-- The invariant of the step map during `calc_step_map`: every entry is
at most the sentinel; the goal entry is 0; every non-sentinel entry `n` at
cell `c` is justified by an actual `n`-hop open path from `c` to the goal;
and non-sentinel entries live at the goal or inside the grid. -/
def StepInv (m : Maze) (isw : Wall → Bool) (g : Position) (sm : StepMap) : Prop :=
  (∀ a b, sm a b ≤ NONE) ∧
  sm g.y g.x = 0 ∧
  (∀ a b, sm a b ≠ NONE → reach m isw g (sm a b) (a, b) = true) ∧
  (∀ a b, sm a b ≠ NONE → ((a, b) = (g.y, g.x) ∨ (a < m.height ∧ b < m.width)))

theorem initMap_inv (m : Maze) (isw : Wall → Bool) (g : Position) :
    StepInv m isw g (initMap g) := by
  refine ⟨?_, ?_, ?_, ?_⟩
  · intro a b
    unfold initMap upd2
    split
    · exact Nat.zero_le _
    · exact Nat.le_refl _
  · simp [initMap, upd2]
  · intro a b hne
    unfold initMap upd2 at hne ⊢
    by_cases hab : a = g.y ∧ b = g.x
    · obtain ⟨h1, h2⟩ := hab
      subst h1; subst h2
      simp [reach]
    · simp only [if_neg hab] at hne
      exact absurd rfl hne
  · intro a b hne
    unfold initMap upd2 at hne
    by_cases hab : a = g.y ∧ b = g.x
    · obtain ⟨h1, h2⟩ := hab
      subst h1; subst h2
      exact Or.inl rfl
    · simp only [if_neg hab] at hne
      exact absurd rfl hne

theorem upd2_same {α : Type} (f : Nat → Nat → α) (i j : Nat) (v : α) :
    upd2 f i j v i j = v := by simp [upd2]

theorem upd2_other {α : Type} (f : Nat → Nat → α) (i j : Nat) (v : α) (a b : Nat)
    (h : ¬(a = i ∧ b = j)) : upd2 f i j v a b = f a b := by
  unfold upd2
  rw [if_neg h]

theorem relax_inv (m : Maze) (isw : Wall → Bool) (g : Position)
    (s : StepMap × Bool) (t : (Nat × Nat) × Compass)
    (ht : t ∈ scanned_cells m) (hinv : StepInv m isw g s.1) :
    StepInv m isw g (relax m isw s t).1 := by
  obtain ⟨hbound, hgoal, hjust, hrange⟩ := hinv
  rcases relax_eq_or_update m isw s t with heq | ⟨y2, x2, hnb, hw, hlt, heq⟩
  · rw [heq]
    exact ⟨hbound, hgoal, hjust, hrange⟩
  · have h1 : (relax m isw s t).1 = upd2 s.1 t.1.1 t.1.2 ((s.1 y2 x2 + 1) % 65536) := by
      rw [heq]
    rw [h1]
    obtain ⟨hi, hj⟩ := (mem_scanned_cells m t).mp ht
    -- The stored value is the neighbor's entry plus one with no wrap:
    -- a sentinel neighbor would make it 65535, contradicting the bound.
    have hu_ne : s.1 y2 x2 ≠ NONE := by
      intro hNONE
      rw [hNONE] at hlt
      have := hbound t.1.1 t.1.2
      simp only [NONE] at hlt this
      omega
    have hu_lt : s.1 y2 x2 < NONE :=
      Nat.lt_of_le_of_ne (hbound y2 x2) hu_ne
    have hv : (s.1 y2 x2 + 1) % 65536 = s.1 y2 x2 + 1 := by
      apply Nat.mod_eq_of_lt
      simp only [NONE] at hu_lt
      omega
    refine ⟨?_, ?_, ?_, ?_⟩
    · intro a b
      by_cases hab : a = t.1.1 ∧ b = t.1.2
      · obtain ⟨ha, hb⟩ := hab
        subst ha; subst hb
        rw [upd2_same]
        exact Nat.le_trans (Nat.le_of_lt hlt) (hbound _ _)
      · rw [upd2_other _ _ _ _ _ _ hab]
        exact hbound a b
    · by_cases hab : g.y = t.1.1 ∧ g.x = t.1.2
      · obtain ⟨ha, hb⟩ := hab
        rw [← ha, ← hb] at hlt
        rw [hgoal] at hlt
        exact absurd hlt (Nat.not_lt_zero _)
      · rw [upd2_other _ _ _ _ _ _ hab]
        exact hgoal
    · intro a b hne
      by_cases hab : a = t.1.1 ∧ b = t.1.2
      · obtain ⟨ha, hb⟩ := hab
        subst ha; subst hb
        rw [upd2_same] at hne ⊢
        rw [hv]
        have hreach2 : reach m isw g (s.1 y2 x2) (y2, x2) = true := hjust y2 x2 hu_ne
        simp only [reach]
        apply List.any_eq_true.mpr
        refine ⟨t.2, by cases t.2 <;> simp, ?_⟩
        simp only [hnb, hw, hreach2]
        rfl
      · rw [upd2_other _ _ _ _ _ _ hab] at hne ⊢
        exact hjust a b hne
    · intro a b hne
      by_cases hab : a = t.1.1 ∧ b = t.1.2
      · obtain ⟨ha, hb⟩ := hab
        subst ha; subst hb
        exact Or.inr ⟨hi, hj⟩
      · rw [upd2_other _ _ _ _ _ _ hab] at hne
        exact hrange a b hne

theorem foldl_inv (m : Maze) (isw : Wall → Bool) (g : Position)
    (l : List ((Nat × Nat) × Compass)) (s : StepMap × Bool)
    (hl : ∀ t ∈ l, t ∈ scanned_cells m) (hinv : StepInv m isw g s.1) :
    StepInv m isw g (l.foldl (relax m isw) s).1 := by
  induction l generalizing s with
  | nil => exact hinv
  | cons t ts ih =>
      rw [List.foldl_cons]
      exact ih _ (fun t2 ht2 => hl t2 (List.mem_cons_of_mem t ht2))
        (relax_inv m isw g s t (hl t (List.mem_cons_self t ts)) hinv)

theorem loopFuel_inv (m : Maze) (isw : Wall → Bool) (g : Position)
    (fuel : Nat) (sm : StepMap) (hinv : StepInv m isw g sm) :
    StepInv m isw g (loopFuel m isw fuel sm) := by
  induction fuel generalizing sm with
  | zero => exact hinv
  | succ fuel ih =>
      show StepInv m isw g (if (onePass m isw sm).2 then _ else (onePass m isw sm).1)
      have hpass : StepInv m isw g (onePass m isw sm).1 :=
        foldl_inv m isw g (scanned_cells m) (sm, false) (fun _ h => h) hinv
      cases hflag : (onePass m isw sm).2
      · simpa using hpass
      · simpa using ih _ hpass

/-- The computed step map satisfies the invariant: entries are bounded by
the sentinel, the goal holds 0, finite entries are justified by real
paths, and finite entries live at the goal or in range. -/
theorem calc_step_map_inv (m : Maze) (mode : StepMapMode) (g : Position) :
    StepInv m (is_wall mode) g (calc_step_map m mode g) :=
  loopFuel_inv m (is_wall mode) g _ (initMap g) (initMap_inv m (is_wall mode) g)

/-- Fixpoint inequality: in the final step map, every in-range cell's
entry is at most its open-edge neighbor's entry plus one. -/
theorem calc_step_map_relaxed (m : Maze) (mode : StepMapMode) (g : Position)
    (y x : Nat) (hy : y < m.height) (hx : x < m.width)
    (c : Compass) (y2 x2 : Nat)
    (hnb : m.get_neighbor_cell y x c = some (y2, x2))
    (hw : is_wall mode (m.get y x c) = true) :
    calc_step_map m mode g y x ≤ calc_step_map m mode g y2 x2 + 1 := by
  have hfix := calc_step_map_fix m mode g
  have hflag : (onePass m (is_wall mode) (calc_step_map m mode g)).2 = false := by
    rw [hfix]
  obtain ⟨_, hall⟩ := onePass_of_flag_false m (is_wall mode) _ hflag
  have ht : ((y, x), c) ∈ scanned_cells m := (mem_scanned_cells m _).mpr ⟨hy, hx⟩
  have hnoop := hall ((y, x), c) ht
  unfold relax at hnoop
  simp only [hnb, hw, if_true] at hnoop
  set M := calc_step_map m mode g with hM
  by_cases hlt : M y x > (M y2 x2 + 1) % 65536
  · simp only [if_pos hlt] at hnoop
    have : (upd2 M y x ((M y2 x2 + 1) % 65536), true).2 = (M, false).2 := by rw [hnoop]
    simp at this
  · have h1 : M y x ≤ (M y2 x2 + 1) % 65536 := Nat.le_of_not_lt hlt
    exact Nat.le_trans h1 (Nat.mod_le _ _)

/-- Upper bound: the computed entry of an in-range cell is at most the
length of any open path from it to the goal. -/
theorem calc_step_map_le_reach (m : Maze) (mode : StepMapMode) (g : Position)
    (n : Nat) : ∀ y x, y < m.height → x < m.width →
    reach m (is_wall mode) g n (y, x) = true →
    calc_step_map m mode g y x ≤ n := by
  induction n with
  | zero =>
      intro y x _ _ hr
      simp only [reach, decide_eq_true_eq, Prod.mk.injEq] at hr
      obtain ⟨h1, h2⟩ := hr
      subst h1; subst h2
      have := (calc_step_map_inv m mode g).2.1
      omega
  | succ n ih =>
      intro y x hy hx hr
      simp only [reach] at hr
      obtain ⟨c, _, hb⟩ := List.any_eq_true.mp hr
      rcases hnb : m.get_neighbor_cell y x c with _ | ⟨y2, x2⟩
      · simp only [hnb] at hb
        cases hb
      · simp only [hnb, Bool.and_eq_true] at hb
        obtain ⟨hw, hr2⟩ := hb
        obtain ⟨hy2, hx2⟩ := neighbor_range m y x c y2 x2 hnb hy hx
        have h1 := ih y2 x2 hy2 hx2 hr2
        have h2 := calc_step_map_relaxed m mode g y x hy hx c y2 x2 hnb hw
        omega


/-! ## Reachability helper lemmas -/

/-- Opening more edges preserves reachability. -/
theorem reach_mono (m : Maze) (isw1 isw2 : Wall → Bool) (g : Position)
    (hmono : ∀ w, isw1 w = true → isw2 w = true) :
    ∀ n c, reach m isw1 g n c = true → reach m isw2 g n c = true := by
  intro n
  induction n with
  | zero => intro c hr; exact hr
  | succ n ih =>
      intro c hr
      simp only [reach] at hr ⊢
      obtain ⟨comp, hmem, hb⟩ := List.any_eq_true.mp hr
      apply List.any_eq_true.mpr
      refine ⟨comp, hmem, ?_⟩
      rcases hnb : m.get_neighbor_cell c.1 c.2 comp with _ | c2
      · rw [hnb] at hb
        cases hb
      · rw [hnb] at hb
        rw [Bool.and_eq_true] at hb
        obtain ⟨hw, hr2⟩ := hb
        rw [Bool.and_eq_true]
        exact ⟨hmono _ hw, ih c2 hr2⟩

/-- Every edge open under the conservative policy is open under the
optimistic one. -/
theorem is_wall_mono (w : Wall) :
    is_wall StepMapMode.UnexploredAsPresent w = true →
      is_wall StepMapMode.UnexploredAsAbsent w = true := by
  cases w <;> simp [is_wall]

/-- The coordinates a neighbor lookup can return: one step in one of the
four directions. -/
theorem get_neighbor_cell_coords (m : Maze) (y x : Nat) (c : Compass) (y2 x2 : Nat)
    (h : m.get_neighbor_cell y x c = some (y2, x2)) :
    (y2 = y + 1 ∧ x2 = x) ∨ (y2 = y ∧ x2 = x + 1) ∨
      (y2 = y - 1 ∧ x2 = x) ∨ (y2 = y ∧ x2 = x - 1) := by
  cases c <;> simp only [Maze.get_neighbor_cell] at h <;> split at h <;> simp_all

/-- Each hop moves the x coordinate by at most one, so an `n`-hop path
bounds the horizontal offset from the goal by `n`. -/
theorem reach_coord (m : Maze) (isw : Wall → Bool) (g : Position) :
    ∀ n y x, reach m isw g n (y, x) = true → x ≤ g.x + n ∧ g.x ≤ x + n := by
  intro n
  induction n with
  | zero =>
      intro y x hr
      simp only [reach, decide_eq_true_eq, Prod.mk.injEq] at hr
      omega
  | succ n ih =>
      intro y x hr
      simp only [reach] at hr
      obtain ⟨comp, _, hb⟩ := List.any_eq_true.mp hr
      rcases hnb : m.get_neighbor_cell y x comp with _ | ⟨y2, x2⟩
      · rw [hnb] at hb
        cases hb
      · rw [hnb] at hb
        rw [Bool.and_eq_true] at hb
        have hih := ih y2 x2 hb.2
        rcases get_neighbor_cell_coords m y x comp y2 x2 hnb with
          ⟨h1, h2⟩ | ⟨h1, h2⟩ | ⟨h1, h2⟩ | ⟨h1, h2⟩ <;> omega

/-! ## Claim theorems: the distance-field engine -/

/-- C3 (amended): after `calc_step_map(goal)` with the goal in range, the
goal cell holds 0; an in-range cell whose minimum open-path hop count `n`
to the goal is below the sentinel holds exactly `n`; an in-range reachable
cell whose minimum hop count reaches the sentinel `NONE = 65534` holds the
sentinel; and an in-range unreachable cell holds the sentinel. -/
theorem calc_step_map_exact (m : Maze) (mode : StepMapMode) (g : Position)
    (_hgy : g.y < m.height) (_hgx : g.x < m.width) :
    calc_step_map m mode g g.y g.x = 0 ∧
    (∀ y x, y < m.height → x < m.width → ∀ n,
      reach m (is_wall mode) g n (y, x) = true →
      (∀ k, k < n → reach m (is_wall mode) g k (y, x) = false) →
      (n < NONE → calc_step_map m mode g y x = n) ∧
      (NONE ≤ n → calc_step_map m mode g y x = NONE)) ∧
    (∀ y x, y < m.height → x < m.width →
      (∀ n, reach m (is_wall mode) g n (y, x) = false) →
      calc_step_map m mode g y x = NONE) := by
  obtain ⟨hbound, hgoal, hjust, hrange⟩ := calc_step_map_inv m mode g
  refine ⟨hgoal, ?_, ?_⟩
  · intro y x hy hx n hr hmin
    have hub : calc_step_map m mode g y x ≤ n :=
      calc_step_map_le_reach m mode g n y x hy hx hr
    constructor
    · intro hn
      have hne : calc_step_map m mode g y x ≠ NONE := by omega
      have hj := hjust y x hne
      have : ¬ calc_step_map m mode g y x < n := by
        intro hlt
        have := hmin _ hlt
        rw [this] at hj
        cases hj
      omega
    · intro hn
      by_contra hne
      have hj := hjust y x hne
      have hlt : calc_step_map m mode g y x < n := by
        have := hbound y x
        omega
      have := hmin _ hlt
      rw [this] at hj
      cases hj
  · intro y x _ _ hall
    by_contra hne
    have hj := hjust y x hne
    rw [hall _] at hj
    cases hj

/-- One pass after another, starting from the reset map: the iteration
structure of the `while` loop of `calc_step_map`. -/
def iterPass (m : Maze) (isw : Wall → Bool) : Nat → StepMap → StepMap
  | 0, sm => sm
  | k + 1, sm => iterPass m isw k (onePass m isw sm).1

theorem loopFuel_eq_iterPass (m : Maze) (isw : Wall → Bool) (fuel : Nat)
    (sm : StepMap) (hfuel : sumMap m sm + 1 ≤ fuel) :
    ∃ k, loopFuel m isw fuel sm = iterPass m isw k sm ∧
      (onePass m isw (iterPass m isw k sm)).2 = false := by
  induction fuel generalizing sm with
  | zero => omega
  | succ fuel ih =>
      have hunf : loopFuel m isw (fuel + 1) sm =
          if (onePass m isw sm).2 then loopFuel m isw fuel (onePass m isw sm).1
          else (onePass m isw sm).1 := rfl
      cases hflag : (onePass m isw sm).2 with
      | false =>
          obtain ⟨heq, _⟩ := onePass_of_flag_false m isw sm hflag
          refine ⟨0, ?_, ?_⟩
          · rw [hunf, hflag]
            simp only [Bool.false_eq_true, if_false]
            exact heq
          · exact hflag
      | true =>
          have hlt := onePass_sum_lt m isw sm hflag
          obtain ⟨k, h1, h2⟩ := ih (onePass m isw sm).1 (by omega)
          refine ⟨k + 1, ?_, ?_⟩
          · rw [hunf, hflag]
            simp only [if_true]
            exact h1
          · exact h2

/-- C7: for every maze and goal, the repeated relaxation passes of
`calc_step_map` reach, after finitely many passes, a pass that makes no
update, and the result of `calc_step_map` is the map at that point (each
update strictly decreases `sumMap`, a non-negative total). -/
theorem calc_step_map_terminates (m : Maze) (mode : StepMapMode) (g : Position) :
    ∃ k, calc_step_map m mode g = iterPass m (is_wall mode) k (initMap g) ∧
      (onePass m (is_wall mode) (iterPass m (is_wall mode) k (initMap g))).2 = false :=
  loopFuel_eq_iterPass m (is_wall mode) _ (initMap g) (Nat.le_refl _)

/-- C8: for every maze, in-range goal and cell, the step map computed
under the conservative policy (`UnexploredAsPresent`) is pointwise at
least the one computed under the optimistic policy (`UnexploredAsAbsent`);
the sentinel `NONE` is the largest value either map ever holds. -/
theorem calc_step_map_mode_mono (m : Maze) (g : Position)
    (_hgy : g.y < m.height) (_hgx : g.x < m.width) (y x : Nat) :
    calc_step_map m StepMapMode.UnexploredAsAbsent g y x ≤
      calc_step_map m StepMapMode.UnexploredAsPresent g y x := by
  obtain ⟨haB, haG, haJ, haR⟩ := calc_step_map_inv m StepMapMode.UnexploredAsAbsent g
  obtain ⟨hpB, hpG, hpJ, hpR⟩ := calc_step_map_inv m StepMapMode.UnexploredAsPresent g
  by_cases hp : calc_step_map m StepMapMode.UnexploredAsPresent g y x = NONE
  · rw [hp]
    exact haB y x
  · rcases hpR y x hp with hgoal | ⟨hy, hx⟩
    · obtain ⟨h1, h2⟩ := Prod.mk.injEq _ _ _ _ ▸ hgoal
      subst h1; subst h2
      rw [haG]
      exact Nat.zero_le _
    · have hreach := hpJ y x hp
      have hreach2 := reach_mono m _ _ g is_wall_mono _ _ hreach
      exact calc_step_map_le_reach m StepMapMode.UnexploredAsAbsent g _ y x hy hx hreach2


/-! ## Concrete fixtures and witnesses for the distance-field claims -/

/-- The 2×2 scenario of spec §8: all interior edges Absent, boundary
Present, goal at (1, 1). -/
def maze22 : Maze :=
  { width := 2, height := 2,
    horizontal_walls := fun y _ => if y = 0 ∨ y = 2 then Wall.Present else Wall.Absent,
    vertical_walls := fun _ x => if x = 0 ∨ x = 2 then Wall.Present else Wall.Absent,
    goal := { x := 1, y := 1 } }

/-- Witness for C3 on the spec's own 2×2 scenario: goal cell 0 and the
far corner exactly 2. -/
theorem calc_step_map_exact_witness :
    calc_step_map maze22 StepMapMode.UnexploredAsPresent { x := 1, y := 1 } 1 1 = 0 ∧
    calc_step_map maze22 StepMapMode.UnexploredAsPresent { x := 1, y := 1 } 0 0 = 2 := by
  have h := calc_step_map_exact maze22 StepMapMode.UnexploredAsPresent
    { x := 1, y := 1 } (by decide) (by decide)
  refine ⟨h.1, ?_⟩
  exact (h.2.1 0 0 (by decide) (by decide) 2 (by decide) (by decide)).1 (by decide)

/-- A 1×65536 corridor with every interior edge open and the goal at its
west end: the east end is reachable, but only in 65535 hops, one more
than the sentinel value. -/
def bigMaze : Maze :=
  { width := 65536, height := 1,
    horizontal_walls := fun _ _ => Wall.Present,
    vertical_walls := fun _ x => if x = 0 ∨ x = 65536 then Wall.Present else Wall.Absent,
    goal := { x := 0, y := 0 } }

def bigGoal : Position := { x := 0, y := 0 }

theorem bigMaze_reach : ∀ k, k ≤ 65535 →
    reach bigMaze (is_wall StepMapMode.UnexploredAsAbsent) bigGoal k (0, k) = true := by
  intro k
  induction k with
  | zero => intro _; rfl
  | succ k ih =>
      intro hk
      simp only [reach]
      apply List.any_eq_true.mpr
      refine ⟨Compass.West, by simp, ?_⟩
      have hnb : bigMaze.get_neighbor_cell 0 (k + 1) Compass.West = some (0, k) := by
        simp [Maze.get_neighbor_cell]
      have hwall : is_wall StepMapMode.UnexploredAsAbsent
          (bigMaze.get 0 (k + 1) Compass.West) = true := by
        have hne : ¬(k + 1 = 0 ∨ k + 1 = 65536) := by omega
        simp only [Maze.get, bigMaze]
        rw [if_neg hne]
        rfl
      simp only [hnb, hwall, Bool.true_and]
      exact ih (by omega)

theorem bigMaze_no_shorter :
    reach bigMaze (is_wall StepMapMode.UnexploredAsAbsent) bigGoal 65534 (0, 65535) = false := by
  cases hflag : reach bigMaze (is_wall StepMapMode.UnexploredAsAbsent) bigGoal 65534 (0, 65535)
  · rfl
  · have h := reach_coord bigMaze (is_wall StepMapMode.UnexploredAsAbsent) bigGoal
      65534 0 65535 hflag
    have hgx : bigGoal.x = 0 := rfl
    rw [hgx] at h
    omega

theorem bigMaze_value :
    calc_step_map bigMaze StepMapMode.UnexploredAsAbsent bigGoal 0 65535 = NONE := by
  obtain ⟨hbound, _, hjust, _⟩ :=
    calc_step_map_inv bigMaze StepMapMode.UnexploredAsAbsent bigGoal
  by_contra hne
  have hj := hjust 0 65535 hne
  have hb := hbound 0 65535
  have h := reach_coord bigMaze (is_wall StepMapMode.UnexploredAsAbsent) bigGoal
    (calc_step_map bigMaze StepMapMode.UnexploredAsAbsent bigGoal 0 65535) 0 65535 hj
  have hgx : bigGoal.x = 0 := rfl
  rw [hgx] at h
  simp only [NONE] at hb hne
  omega

/-- C3 counterexample (to the claim as stated): in `bigMaze` the in-range
cell `(0, 65535)` is reachable from the in-range goal — its minimum hop
count is 65535, since no 65534-hop path exists — yet `calc_step_map`
leaves it at the sentinel `NONE = 65534`, not at its minimum hop count. -/
theorem calc_step_map_exact_counterexample :
    bigGoal.y < bigMaze.height ∧ bigGoal.x < bigMaze.width ∧
    (0 : Nat) < bigMaze.height ∧ (65535 : Nat) < bigMaze.width ∧
    reach bigMaze (is_wall StepMapMode.UnexploredAsAbsent) bigGoal 65535 (0, 65535) = true ∧
    reach bigMaze (is_wall StepMapMode.UnexploredAsAbsent) bigGoal 65534 (0, 65535) = false ∧
    calc_step_map bigMaze StepMapMode.UnexploredAsAbsent bigGoal 0 65535 = NONE ∧
    NONE ≠ 65535 :=
  ⟨by decide, by decide, by decide, by decide,
    bigMaze_reach 65535 (Nat.le_refl _), bigMaze_no_shorter, bigMaze_value, by decide⟩

/-- Witness for C8 on the 2×2 fixture. -/
theorem calc_step_map_mode_mono_witness :
    calc_step_map maze22 StepMapMode.UnexploredAsAbsent { x := 1, y := 1 } 0 0 ≤
      calc_step_map maze22 StepMapMode.UnexploredAsPresent { x := 1, y := 1 } 0 0 :=
  calc_step_map_mode_mono maze22 { x := 1, y := 1 } (by decide) (by decide) 0 0


/-! ## Claim theorems: geometry and grid model -/

/-- Helper: `turn` after `get_direction_to` lands on the requested
heading. -/
theorem turn_of_get_direction_to (h h2 : Compass) :
    h.turn (h.get_direction_to h2) = h2 := by
  cases h <;> cases h2 <;> rfl

/-- C6: turning Forward is the identity; Backward twice is the identity;
Left then Right and Right then Left are identities; and the `turn` /
`get_direction_to` tables are mutual inverses. -/
theorem turn_tables_inverse :
    ∀ h h2 : Compass,
      h.turn Direction.Forward = h ∧
      (h.turn Direction.Backward).turn Direction.Backward = h ∧
      (h.turn Direction.Left).turn Direction.Right = h ∧
      (h.turn Direction.Right).turn Direction.Left = h ∧
      h.turn (h.get_direction_to h2) = h2 := by
  intro h h2
  cases h <;> cases h2 <;> exact ⟨rfl, rfl, rfl, rfl, rfl⟩

/-- C10: `Location::forward` hits its error branch (usize underflow in
the source) exactly when heading South at `y = 0` or West at `x = 0`;
otherwise it moves the position one cell along the heading and keeps the
heading. -/
theorem forward_partial_characterization :
    (∀ l : Location, l.forward = none ↔
      (l.dir = Compass.South ∧ l.pos.y = 0) ∨ (l.dir = Compass.West ∧ l.pos.x = 0)) ∧
    (∀ l l2 : Location, l.forward = some l2 →
      l2.dir = l.dir ∧
      ((l.dir = Compass.North ∧ l2.pos.x = l.pos.x ∧ l2.pos.y = l.pos.y + 1) ∨
       (l.dir = Compass.East ∧ l2.pos.x = l.pos.x + 1 ∧ l2.pos.y = l.pos.y) ∨
       (l.dir = Compass.South ∧ l2.pos.x = l.pos.x ∧ l2.pos.y = l.pos.y - 1 ∧ l.pos.y ≠ 0) ∨
       (l.dir = Compass.West ∧ l2.pos.x = l.pos.x - 1 ∧ l2.pos.y = l.pos.y ∧ l.pos.x ≠ 0))) := by
  constructor
  · intro l
    obtain ⟨⟨x, y⟩, d⟩ := l
    cases d <;> simp only [Location.forward] <;> simp
  · intro l l2 hfwd
    obtain ⟨⟨x, y⟩, d⟩ := l
    cases d <;> simp only [Location.forward] at hfwd
    · cases hfwd
      exact ⟨rfl, Or.inl ⟨rfl, rfl, rfl⟩⟩
    · cases hfwd
      exact ⟨rfl, Or.inr (Or.inl ⟨rfl, rfl, rfl⟩)⟩
    · split at hfwd
      · cases hfwd
      · next hy =>
          cases hfwd
          exact ⟨rfl, Or.inr (Or.inr (Or.inl ⟨rfl, rfl, rfl, hy⟩))⟩
    · split at hfwd
      · cases hfwd
      · next hx =>
          cases hfwd
          exact ⟨rfl, Or.inr (Or.inr (Or.inr ⟨rfl, rfl, rfl, hx⟩))⟩

/-- Witness for C10: concrete application of the `some` branch at
`(1, 1)` facing South. -/
theorem forward_partial_characterization_witness :
    Location.forward { pos := { x := 1, y := 1 }, dir := Compass.South } =
      some { pos := { x := 1, y := 0 }, dir := Compass.South } ∧
    ({ pos := { x := 1, y := 0 }, dir := Compass.South } : Location).dir =
      ({ pos := { x := 1, y := 1 }, dir := Compass.South } : Location).dir :=
  ⟨rfl, (forward_partial_characterization.2
    { pos := { x := 1, y := 1 }, dir := Compass.South }
    { pos := { x := 1, y := 0 }, dir := Compass.South } rfl).1⟩

/-- C2 (code-bug evaluation): from the in-range cell `(y, x) = (1, 0)` of
a fresh 2×2 maze, `set(1, 0, North, Absent)` overwrites the top boundary
edge `horizontal_walls[2][0]` from Present to Absent: the outer-wall
guard of `Maze::set` compares `y == height` instead of the cell row
`height - 1` that actually addresses the top boundary (likewise
`x == width` for the east boundary). -/
theorem set_boundary_guard_bug :
    (Maze.new 2 2).height = 2 ∧ (1 : Nat) < 2 ∧ (0 : Nat) < 2 ∧
    (Maze.new 2 2).horizontal_walls 2 0 = Wall.Present ∧
    ((Maze.new 2 2).set 1 0 Compass.North Wall.Absent).horizontal_walls 2 0 =
      Wall.Absent := by decide

/-- C9: after `Maze::new`/`init` with `width ≥ 2`, `height ≥ 1`: the
whole outer boundary is Present; the east wall of the start cell (the
edge to the right of the initial North heading) is the one non-boundary
Present edge; every other non-boundary edge is Unexplored; the goal is
the centre cell `(width / 2, height / 2)`. -/
theorem init_characterization (w h : Nat) (hw2 : 2 ≤ w) (_hh1 : 1 ≤ h) :
    (∀ x, x < w → (Maze.new w h).horizontal_walls 0 x = Wall.Present ∧
      (Maze.new w h).horizontal_walls h x = Wall.Present) ∧
    (∀ y, y < h → (Maze.new w h).vertical_walls y 0 = Wall.Present ∧
      (Maze.new w h).vertical_walls y w = Wall.Present) ∧
    (Maze.new w h).vertical_walls 0 1 = Wall.Present ∧
    (∀ y x, 0 < y → y < h → x < w →
      (Maze.new w h).horizontal_walls y x = Wall.Unexplored) ∧
    (∀ y x, y < h → 0 < x → x < w → ¬(y = 0 ∧ x = 1) →
      (Maze.new w h).vertical_walls y x = Wall.Unexplored) ∧
    (Maze.new w h).goal = { x := w / 2, y := h / 2 } := by
  have hset : Maze.new w h =
      { width := w, height := h,
        horizontal_walls := fun y _ =>
          if y = 0 ∨ y = h then Wall.Present else Wall.Unexplored,
        vertical_walls :=
          upd2 (fun _ x => if x = 0 ∨ x = w then Wall.Present else Wall.Unexplored)
            0 1 Wall.Present,
        goal := { x := w / 2, y := h / 2 } } := by
    simp only [Maze.new, Maze.init, Compass.turn, Maze.set]
    rw [if_neg]
    intro hcon
    rcases hcon with ⟨_, hc, _⟩ | ⟨_, hc, _⟩ | ⟨_, hc, _⟩ | ⟨_, _, hc⟩
    · cases hc
    · cases hc
    · cases hc
    · exact hc rfl
  have hhw : (Maze.new w h).horizontal_walls =
      fun y _ => if y = 0 ∨ y = h then Wall.Present else Wall.Unexplored := by
    rw [hset]
  have hvw : (Maze.new w h).vertical_walls =
      upd2 (fun _ x => if x = 0 ∨ x = w then Wall.Present else Wall.Unexplored)
        0 1 Wall.Present := by
    rw [hset]
  have hgoal : (Maze.new w h).goal = { x := w / 2, y := h / 2 } := by
    rw [hset]
  refine ⟨?_, ?_, ?_, ?_, ?_, hgoal⟩
  · intro x _
    rw [hhw]
    constructor
    · simp
    · simp
  · intro y hy
    rw [hvw]
    constructor
    · rw [upd2_other _ _ _ _ _ _ (by omega)]
      simp
    · rw [upd2_other _ _ _ _ _ _ (by omega)]
      simp
  · rw [hvw]
    exact upd2_same _ _ _ _
  · intro y x hy0 hyh _
    rw [hhw]
    have hne2 : ¬(y = 0 ∨ y = h) := by omega
    simp only [if_neg hne2]
  · intro y x _ hx0 hxw hne
    rw [hvw]
    rw [upd2_other _ _ _ _ _ _ hne]
    have hne2 : ¬(x = 0 ∨ x = w) := by omega
    simp only [if_neg hne2]

/-- Witness for C9 at a concrete 4×4 maze. -/
theorem init_characterization_witness :
    (2 ≤ 4 ∧ 1 ≤ 4) ∧
    (Maze.new 4 4).vertical_walls 0 1 = Wall.Present ∧
    (Maze.new 4 4).goal = { x := 2, y := 2 } :=
  ⟨⟨by decide, by decide⟩,
    (init_characterization 4 4 (by decide) (by decide)).2.2.1,
    (init_characterization 4 4 (by decide) (by decide)).2.2.2.2.2⟩

/-! ## Claim theorems: the navigator -/

/-- C4 (amended): `navigate` signals `GoalReached` when the current
position equals the maze's stored goal (`Maze::get_goal`), and then
returns the navigator completely unchanged — no sensor reading is
recorded.  (The `goal` argument is not consulted for this check.) -/
theorem navigate_goalReached (a : Adachi) (front left right : Wall) (g : Position)
    (h : a.maze.goal = a.location.pos) :
    a.navigate front left right g = (Except.error NavError.goalReached, a) := by
  unfold Adachi.navigate
  rw [if_pos h]

/-- A navigator already standing on its maze's goal. -/
def adachiAtGoal : Adachi :=
  { location := { pos := { x := 0, y := 0 }, dir := Compass.North },
    maze := { maze22 with goal := { x := 0, y := 0 } },
    step_map := fun _ _ => NONE,
    mode := StepMapMode.UnexploredAsAbsent }

/-- Witness for C4 (amended) on a concrete state. -/
theorem navigate_goalReached_witness :
    adachiAtGoal.navigate Wall.Absent Wall.Absent Wall.Absent { x := 1, y := 1 } =
      (Except.error NavError.goalReached, adachiAtGoal) :=
  navigate_goalReached adachiAtGoal Wall.Absent Wall.Absent Wall.Absent
    { x := 1, y := 1 } rfl

/-- A fresh navigator on a fresh 2×2 maze (maze goal is the centre
`(1, 1)`, position `(0, 0)`). -/
def adachiFresh : Adachi := Adachi.new (Maze.new 2 2)

/-- C4 counterexample (to the claim as stated): the current position
equals the `goal` argument `(0, 0)`, yet `navigate` does not fail with
`GoalReached` — it records the front reading (the North wall of `(0, 0)`
changes from Unexplored to Absent) and returns a direction, because the
source compares the position against `Maze::get_goal()`, not against the
`goal` argument. -/
theorem navigate_goalReached_counterexample :
    adachiFresh.location.pos = ({ x := 0, y := 0 } : Position) ∧
    (adachiFresh.navigate Wall.Absent Wall.Present Wall.Present
      { x := 0, y := 0 }).1 ≠ Except.error NavError.goalReached ∧
    (adachiFresh.navigate Wall.Absent Wall.Present Wall.Present
      { x := 0, y := 0 }).1 = Except.ok Direction.Forward ∧
    adachiFresh.maze.horizontal_walls 1 0 = Wall.Unexplored ∧
    (adachiFresh.navigate Wall.Absent Wall.Present Wall.Present
      { x := 0, y := 0 }).2.maze.horizontal_walls 1 0 = Wall.Absent := by decide


/-! ## The scan invariant of `navigate` -/

theorem neighbor_step_le (sm : StepMap) (hsm : ∀ a b, sm a b ≤ NONE) (y x : Nat)
    (c : Compass) : neighbor_step sm y x c ≤ NONE := by
  cases c <;> exact hsm _ _

/-- The invariant of the running `(min_step, result)` pair after the scan
blocks for the directions in `done` have run: if no direction was taken,
none of them had an Absent edge and the minimum is still `u16::MAX`;
otherwise the winner has an Absent edge, holds the running minimum, is
minimal among the scanned Absent directions, and strictly beats every
Absent direction scanned before it. -/
def Good (m3 : Maze) (sm : StepMap) (y x : Nat) (done : List Compass)
    (s : Nat × Option Compass) : Prop :=
  (s.2 = none → s.1 = 65535 ∧ ∀ c ∈ done, m3.get y x c ≠ Wall.Absent) ∧
  (∀ wc, s.2 = some wc → wc ∈ done ∧ m3.get y x wc = Wall.Absent ∧
    s.1 = neighbor_step sm y x wc ∧
    (∀ c ∈ done, m3.get y x c = Wall.Absent →
      neighbor_step sm y x wc ≤ neighbor_step sm y x c) ∧
    (∀ c ∈ done, m3.get y x c = Wall.Absent → scan_idx c < scan_idx wc →
      neighbor_step sm y x wc < neighbor_step sm y x c))

theorem good_nil (m3 : Maze) (sm : StepMap) (y x : Nat) :
    Good m3 sm y x [] (65535, none) := by
  constructor
  · intro _
    exact ⟨rfl, by intro c hc; cases hc⟩
  · intro wc hwc
    cases hwc

theorem good_pick (m3 : Maze) (sm : StepMap) (y x : Nat) (done : List Compass)
    (s : Nat × Option Compass) (cn : Compass)
    (hsm : ∀ a b, sm a b ≤ NONE)
    (hidx : ∀ c ∈ done, scan_idx c < scan_idx cn)
    (hg : Good m3 sm y x done s) :
    Good m3 sm y x (done ++ [cn])
      (pick s (m3.get y x cn) (neighbor_step sm y x cn) cn) := by
  obtain ⟨hnone, hsome⟩ := hg
  unfold pick
  by_cases hcond : m3.get y x cn = Wall.Absent ∧ neighbor_step sm y x cn < s.1
  · rw [if_pos hcond]
    constructor
    · intro hno
      exact Option.noConfusion hno
    · intro wc hwc
      have hwc2 : some cn = some wc := hwc
      have heqw : cn = wc := Option.some.inj hwc2
      subst heqw
      refine ⟨List.mem_append.mpr (Or.inr (List.mem_singleton.mpr rfl)),
        hcond.1, rfl, ?_, ?_⟩
      · intro c hc habs
        rcases List.mem_append.mp hc with hcd | hcl
        · cases hs2 : s.2 with
          | none =>
              obtain ⟨_, habs2⟩ := hnone hs2
              exact absurd habs (habs2 c hcd)
          | some w0 =>
              obtain ⟨_, _, hval, hmin, _⟩ := hsome w0 hs2
              have h1 := hcond.2
              rw [hval] at h1
              have h2 := hmin c hcd habs
              omega
        · have hccn : c = cn := by simpa using hcl
          subst hccn
          exact Nat.le_refl _
      · intro c hc habs hidxlt
        rcases List.mem_append.mp hc with hcd | hcl
        · cases hs2 : s.2 with
          | none =>
              obtain ⟨_, habs2⟩ := hnone hs2
              exact absurd habs (habs2 c hcd)
          | some w0 =>
              obtain ⟨_, _, hval, hmin, _⟩ := hsome w0 hs2
              have h1 := hcond.2
              rw [hval] at h1
              have h2 := hmin c hcd habs
              omega
        · have hccn : c = cn := by simpa using hcl
          subst hccn
          exact absurd hidxlt (Nat.lt_irrefl _)
  · rw [if_neg hcond]
    constructor
    · intro hs2
      obtain ⟨h65, habs⟩ := hnone hs2
      refine ⟨h65, ?_⟩
      intro c hc
      rcases List.mem_append.mp hc with hcd | hcl
      · exact habs c hcd
      · have hccn : c = cn := by simpa using hcl
        subst hccn
        intro habs2
        apply hcond
        refine ⟨habs2, ?_⟩
        rw [h65]
        have := neighbor_step_le sm hsm y x c
        simp only [NONE] at this
        omega
    · intro wc hwc
      obtain ⟨hmem, habs, hval, hmin, htie⟩ := hsome wc hwc
      refine ⟨List.mem_append.mpr (Or.inl hmem), habs, hval, ?_, ?_⟩
      · intro c hc habs2
        rcases List.mem_append.mp hc with hcd | hcl
        · exact hmin c hcd habs2
        · have hccn : c = cn := by simpa using hcl
          subst hccn
          have hnlt : ¬ neighbor_step sm y x c < s.1 := fun hlt => hcond ⟨habs2, hlt⟩
          rw [hval] at hnlt
          omega
      · intro c hc habs2 hidxlt
        rcases List.mem_append.mp hc with hcd | hcl
        · exact htie c hcd habs2 hidxlt
        · have hccn : c = cn := by simpa using hcl
          subst hccn
          have := hidx wc hmem
          omega

theorem scan_dirs_good (m3 : Maze) (sm : StepMap) (y x : Nat)
    (hsm : ∀ a b, sm a b ≤ NONE) :
    Good m3 sm y x [Compass.North, Compass.East, Compass.South, Compass.West]
      (scan_dirs m3 sm y x) := by
  have g0 := good_nil m3 sm y x
  have g1 := good_pick m3 sm y x [] _ Compass.North hsm
    (by intro c hc; cases hc) g0
  have g2 := good_pick m3 sm y x ([] ++ [Compass.North]) _ Compass.East hsm
    (by decide) g1
  have g3 := good_pick m3 sm y x (([] ++ [Compass.North]) ++ [Compass.East]) _
    Compass.South hsm (by decide) g2
  have g4 := good_pick m3 sm y x
    ((([] ++ [Compass.North]) ++ [Compass.East]) ++ [Compass.South]) _
    Compass.West hsm (by decide) g3
  exact g4

/-- Unfolding of `navigate` on the non-goal branch. -/
theorem navigate_eq (a : Adachi) (front left right : Wall) (g : Position)
    (hgoal : a.maze.goal ≠ a.location.pos) :
    a.navigate front left right g =
      (match (scan_dirs (record_walls a front left right)
          (calc_step_map (record_walls a front left right) a.mode g)
          a.location.pos.y a.location.pos.x).2 with
        | none => (Except.error NavError.noPath,
            { a with maze := record_walls a front left right,
                     step_map := calc_step_map (record_walls a front left right) a.mode g })
        | some comp => (Except.ok (a.location.dir.get_direction_to comp),
            { a with maze := record_walls a front left right,
                     step_map := calc_step_map (record_walls a front left right) a.mode g })) := by
  unfold Adachi.navigate
  rw [if_neg hgoal]

/-- C1 (amended): when the current cell is not the maze's stored goal,
`navigate` fails with `NoPath` exactly when no compass direction from the
current cell has an Absent edge after the sensor writes.  (An Absent
direction whose neighbor holds the sentinel is still taken, because the
sentinel `65534` is below the scan's initial minimum `u16::MAX = 65535`.) -/
theorem navigate_noPath_iff (a : Adachi) (front left right : Wall) (g : Position)
    (hgoal : a.maze.goal ≠ a.location.pos)
    (_hy : a.location.pos.y < a.maze.height) (_hx : a.location.pos.x < a.maze.width)
    (_hgy : g.y < a.maze.height) (_hgx : g.x < a.maze.width)
    (_hb : boundary_ok (record_walls a front left right)) :
    (a.navigate front left right g).1 = Except.error NavError.noPath ↔
      ∀ c : Compass, (record_walls a front left right).get
        a.location.pos.y a.location.pos.x c ≠ Wall.Absent := by
  have heq := navigate_eq a front left right g hgoal
  have hsm : ∀ a2 b2, calc_step_map (record_walls a front left right) a.mode g a2 b2 ≤ NONE :=
    (calc_step_map_inv (record_walls a front left right) a.mode g).1
  have hgood := scan_dirs_good (record_walls a front left right)
    (calc_step_map (record_walls a front left right) a.mode g)
    a.location.pos.y a.location.pos.x hsm
  rw [heq]
  cases hscan : (scan_dirs (record_walls a front left right)
      (calc_step_map (record_walls a front left right) a.mode g)
      a.location.pos.y a.location.pos.x).2 with
  | none =>
      simp only [hscan]
      constructor
      · intro _
        obtain ⟨_, habs⟩ := hgood.1 hscan
        intro c
        exact habs c (by cases c <;> simp)
      · intro _
        trivial
  | some comp =>
      simp only [hscan]
      constructor
      · intro hfalse
        exact Except.noConfusion hfalse
      · intro hall
        obtain ⟨_, habs, _, _, _⟩ := hgood.2 comp hscan
        exact absurd habs (hall comp)

/-- C5: whenever `navigate` returns `Ok d`, the absolute heading
`a.location.dir.turn d` has an Absent edge from the current cell in the
post-write maze (in particular never a Present one), its neighbor's
step-map value is minimal among all directions with an Absent edge, and
among the directions achieving that minimum it is the earliest in the
fixed North, East, South, West scan order. -/
theorem navigate_ok_direction (a : Adachi) (front left right : Wall) (g : Position)
    (d : Direction)
    (_hy : a.location.pos.y < a.maze.height) (_hx : a.location.pos.x < a.maze.width)
    (_hgy : g.y < a.maze.height) (_hgx : g.x < a.maze.width)
    (_hb : boundary_ok (record_walls a front left right))
    (hok : (a.navigate front left right g).1 = Except.ok d) :
    (record_walls a front left right).get a.location.pos.y a.location.pos.x
      (a.location.dir.turn d) = Wall.Absent ∧
    (∀ c : Compass, (record_walls a front left right).get
        a.location.pos.y a.location.pos.x c = Wall.Absent →
      neighbor_step (calc_step_map (record_walls a front left right) a.mode g)
          a.location.pos.y a.location.pos.x (a.location.dir.turn d) ≤
        neighbor_step (calc_step_map (record_walls a front left right) a.mode g)
          a.location.pos.y a.location.pos.x c) ∧
    (∀ c : Compass, (record_walls a front left right).get
        a.location.pos.y a.location.pos.x c = Wall.Absent →
      neighbor_step (calc_step_map (record_walls a front left right) a.mode g)
          a.location.pos.y a.location.pos.x c =
        neighbor_step (calc_step_map (record_walls a front left right) a.mode g)
          a.location.pos.y a.location.pos.x (a.location.dir.turn d) →
      scan_idx (a.location.dir.turn d) ≤ scan_idx c) := by
  by_cases hg : a.maze.goal = a.location.pos
  · exfalso
    unfold Adachi.navigate at hok
    rw [if_pos hg] at hok
    cases hok
  · have heq := navigate_eq a front left right g hg
    rw [heq] at hok
    have hsm : ∀ a2 b2,
        calc_step_map (record_walls a front left right) a.mode g a2 b2 ≤ NONE :=
      (calc_step_map_inv (record_walls a front left right) a.mode g).1
    have hgood := scan_dirs_good (record_walls a front left right)
      (calc_step_map (record_walls a front left right) a.mode g)
      a.location.pos.y a.location.pos.x hsm
    cases hscan : (scan_dirs (record_walls a front left right)
        (calc_step_map (record_walls a front left right) a.mode g)
        a.location.pos.y a.location.pos.x).2 with
    | none =>
        rw [hscan] at hok
        cases hok
    | some comp =>
        rw [hscan] at hok
        have hok2 : Except.ok (a.location.dir.get_direction_to comp) =
            (Except.ok d : Except NavError Direction) := hok
        have hd : a.location.dir.get_direction_to comp = d := by
          injection hok2
        have hturn : a.location.dir.turn d = comp := by
          rw [← hd]
          exact turn_of_get_direction_to _ _
        obtain ⟨_, habs, _, hmin, htie⟩ := hgood.2 comp hscan
        rw [hturn]
        refine ⟨habs, ?_, ?_⟩
        · intro c habs2
          exact hmin c (by cases c <;> simp) habs2
        · intro c habs2 heq2
          by_contra hle
          have hlt2 : scan_idx c < scan_idx comp := Nat.lt_of_not_le hle
          have := htie c (by cases c <;> simp) habs2 hlt2
          omega


/-- Witness for C1 (amended) on a fresh 2×2 maze where all three readings
are Present: no direction has an Absent edge and `navigate` fails with
`NoPath`. -/
theorem navigate_noPath_iff_witness :
    (adachiFresh.navigate Wall.Present Wall.Present Wall.Present { x := 1, y := 1 }).1 =
        Except.error NavError.noPath ↔
      ∀ c : Compass, (record_walls adachiFresh Wall.Present Wall.Present Wall.Present).get
        adachiFresh.location.pos.y adachiFresh.location.pos.x c ≠ Wall.Absent :=
  navigate_noPath_iff adachiFresh Wall.Present Wall.Present Wall.Present
    { x := 1, y := 1 } (by decide) (by decide) (by decide) (by decide) (by decide)
    (by decide)

/-- A navigator standing at `(0, 0)` in a 2×2 maze whose lower cells are
sealed off from the goal cells by Present walls, with the edge between the
two lower cells Absent. -/
def sealedMaze : Maze :=
  { width := 2, height := 2,
    horizontal_walls := fun _ _ => Wall.Present,
    vertical_walls := fun _ x => if x = 0 ∨ x = 2 then Wall.Present else Wall.Absent,
    goal := { x := 1, y := 1 } }

def adachiSealed : Adachi :=
  { location := { pos := { x := 0, y := 0 }, dir := Compass.North },
    maze := sealedMaze,
    step_map := fun _ _ => NONE,
    mode := StepMapMode.UnexploredAsPresent }

/-- C1 counterexample (to the claim as stated): the East edge of the
current cell is Absent but every direction with an Absent edge leads to a
neighbor holding the sentinel (the current cell's component is sealed off
from the goal) — yet `navigate` returns `Ok(Right)` instead of failing
with `NoPath`, because the sentinel `65534` beats the initial minimum
`u16::MAX = 65535`. -/
theorem navigate_noPath_counterexample :
    adachiSealed.maze.goal ≠ adachiSealed.location.pos ∧
    (record_walls adachiSealed Wall.Present Wall.Present Wall.Absent).get 0 0
      Compass.East = Wall.Absent ∧
    ((record_walls adachiSealed Wall.Present Wall.Present Wall.Absent).get 0 0
        Compass.North = Wall.Absent →
      neighbor_step (calc_step_map
        (record_walls adachiSealed Wall.Present Wall.Present Wall.Absent)
        StepMapMode.UnexploredAsPresent { x := 1, y := 1 }) 0 0 Compass.North = NONE) ∧
    ((record_walls adachiSealed Wall.Present Wall.Present Wall.Absent).get 0 0
        Compass.East = Wall.Absent →
      neighbor_step (calc_step_map
        (record_walls adachiSealed Wall.Present Wall.Present Wall.Absent)
        StepMapMode.UnexploredAsPresent { x := 1, y := 1 }) 0 0 Compass.East = NONE) ∧
    ((record_walls adachiSealed Wall.Present Wall.Present Wall.Absent).get 0 0
        Compass.South = Wall.Absent →
      neighbor_step (calc_step_map
        (record_walls adachiSealed Wall.Present Wall.Present Wall.Absent)
        StepMapMode.UnexploredAsPresent { x := 1, y := 1 }) 0 0 Compass.South = NONE) ∧
    ((record_walls adachiSealed Wall.Present Wall.Present Wall.Absent).get 0 0
        Compass.West = Wall.Absent →
      neighbor_step (calc_step_map
        (record_walls adachiSealed Wall.Present Wall.Present Wall.Absent)
        StepMapMode.UnexploredAsPresent { x := 1, y := 1 }) 0 0 Compass.West = NONE) ∧
    (adachiSealed.navigate Wall.Present Wall.Present Wall.Absent { x := 1, y := 1 }).1 =
      Except.ok Direction.Right := by decide

/-- Witness for C5 on a fresh 2×2 maze with an Absent front reading:
`navigate` returns Forward and the returned direction satisfies the three
scan properties. -/
theorem navigate_ok_direction_witness :
    (record_walls adachiFresh Wall.Absent Wall.Present Wall.Present).get
      adachiFresh.location.pos.y adachiFresh.location.pos.x
      (adachiFresh.location.dir.turn Direction.Forward) = Wall.Absent ∧
    (∀ c : Compass, (record_walls adachiFresh Wall.Absent Wall.Present Wall.Present).get
        adachiFresh.location.pos.y adachiFresh.location.pos.x c = Wall.Absent →
      neighbor_step (calc_step_map
          (record_walls adachiFresh Wall.Absent Wall.Present Wall.Present)
          adachiFresh.mode { x := 1, y := 1 })
          adachiFresh.location.pos.y adachiFresh.location.pos.x
          (adachiFresh.location.dir.turn Direction.Forward) ≤
        neighbor_step (calc_step_map
          (record_walls adachiFresh Wall.Absent Wall.Present Wall.Present)
          adachiFresh.mode { x := 1, y := 1 })
          adachiFresh.location.pos.y adachiFresh.location.pos.x c) ∧
    (∀ c : Compass, (record_walls adachiFresh Wall.Absent Wall.Present Wall.Present).get
        adachiFresh.location.pos.y adachiFresh.location.pos.x c = Wall.Absent →
      neighbor_step (calc_step_map
          (record_walls adachiFresh Wall.Absent Wall.Present Wall.Present)
          adachiFresh.mode { x := 1, y := 1 })
          adachiFresh.location.pos.y adachiFresh.location.pos.x c =
        neighbor_step (calc_step_map
          (record_walls adachiFresh Wall.Absent Wall.Present Wall.Present)
          adachiFresh.mode { x := 1, y := 1 })
          adachiFresh.location.pos.y adachiFresh.location.pos.x
          (adachiFresh.location.dir.turn Direction.Forward) →
      scan_idx (adachiFresh.location.dir.turn Direction.Forward) ≤ scan_idx c) :=
  navigate_ok_direction adachiFresh Wall.Absent Wall.Present Wall.Present
    { x := 1, y := 1 } Direction.Forward (by decide) (by decide) (by decide)
    (by decide) (by decide) (by decide)


end MmMaze
